import Mathlib

/-!
# oursaxpy.c : iterative SAXPY with per-iteration averages

A shallow embedding of `src/oursaxpy.c`.

* C `int` values are mathematical integers; every arithmetic operation that the
  program performs on an `int` goes through `checked`, which fails (`none`)
  when the result leaves the 32-bit signed range (signed overflow is undefined).
* C `double` values are taken in exact arithmetic (`ℚ`).
* The arrays `X`, `Y`, `Y_avgs` are lists; a load or a store outside the block
  fails (`none`).
* The threads of one iteration run one after the other, each to completion, in
  an order picked by a scheduler `sched` (a parameter of the model).
-/

namespace Saxpy

/-! ## Machine integers -/

def INT_MAX : Int := 2147483647

def INT_MIN : Int := -2147483648

/-- A value of the C type `int`. -/
structure c_int where
  val : Int
  ge_min : INT_MIN ≤ val
  le_max : val ≤ INT_MAX

/-- The result of an `int` operation: defined only inside the `int` range. -/
def checked (x : Int) : Option Int :=
  if INT_MIN ≤ x ∧ x ≤ INT_MAX then some x else none

/-- The C expression `x / y` on `int`s: truncating, undefined for `y == 0`. -/
def c_div (x y : Int) : Option Int :=
  if y = 0 then none else checked (Int.tdiv x y)

/-! ## Memory -/

/-- The C expression `A[i]` read from a block of doubles. -/
def load (A : List ℚ) (i : Int) : Option ℚ :=
  if 0 ≤ i then A[i.toNat]? else none

/-- The C statement `A[i] = v` on a block of doubles. -/
def store (A : List ℚ) (i : Int) (v : ℚ) : Option (List ℚ) :=
  if 0 ≤ i ∧ i.toNat < A.length then some (A.set i.toNat v) else none

/-- The range handed to one thread (`struct __buf_t`). -/
structure buf_t where
  min : Int
  max : Int
  deriving DecidableEq, Repr

/-- The globals of the program: `X`, `Y`, `Y_avgs`, `a`, `it`, `p`. -/
structure Globals where
  X : List ℚ
  Y : List ℚ
  Y_avgs : List ℚ
  a : ℚ
  it : Int
  p : Int
  deriving DecidableEq

/-! ## The worker, `saxpy` -/

/-- The `while (i < max)` loop of `saxpy` (lines 46-51); the first argument
bounds the number of passes, and the loop fails if it is used up while
`i < max` still holds. -/
def saxpy_loop (X : List ℚ) (a : ℚ) (max : Int) :
    Nat → Int → List ℚ → ℚ → Option (List ℚ × ℚ)
  | 0, i, Y, tmp => if i < max then none else some (Y, tmp)
  | fuel + 1, i, Y, tmp =>
    if i < max then
      (load Y i).bind fun yi =>
      (load X i).bind fun xi =>
      (store Y i (yi + a * xi)).bind fun Y1 =>
      (load Y1 i).bind fun yi1 =>
      saxpy_loop X a max fuel (i + 1) Y1 (tmp + yi1)
    else some (Y, tmp)

/-- The thread body `saxpy` (lines 35-57): update `Y` on `[buf->min, buf->max)`,
then `Y_avgs[it] += tmp / p`. -/
def saxpy (g : Globals) (buf : buf_t) : Option Globals :=
  (saxpy_loop g.X g.a buf.max (buf.max - buf.min).toNat buf.min g.Y 0).bind fun r =>
  (load g.Y_avgs g.it).bind fun old =>
  (store g.Y_avgs g.it (old + r.2 / (g.p : ℚ))).bind fun avgs =>
  some { g with Y := r.1, Y_avgs := avgs }

/-! ## The dispatch loop of `main` -/

/-- Lines 158-160: the range built in pass `i` of the creation loop. -/
def mk_buf (p n_threads m i : Int) : Option buf_t :=
  (checked (i * m)).bind fun mn =>
  (checked (i + 1)).bind fun i1 =>
  (if i1 = n_threads then some p else checked (mn + m)).bind fun mx =>
  some ⟨mn, mx⟩

/-- The ranges built by the first `k` passes of `for (i = 0; i < n_threads; i++)`
(lines 156-165), in creation order. -/
def created (p n_threads m : Int) : Nat → Option (List buf_t)
  | 0 => some []
  | k + 1 =>
    (created p n_threads m k).bind fun l =>
    (mk_buf p n_threads m k).bind fun b =>
    some (l ++ [b])

/-- All ranges of one iteration: the creation loop runs `n_threads` passes. -/
def dispatch (p n_threads m : Int) : Option (List buf_t) :=
  created p n_threads m n_threads.toNat

/-- The partitioner on its own: `m = p / n_threads` (line 150), then the ranges. -/
def partition (p n_threads : Int) : Option (List buf_t) :=
  (c_div p n_threads).bind fun m => dispatch p n_threads m

/-- Threads run to completion one after the other, in the order of the list. -/
def run_threads : List buf_t → Globals → Option Globals
  | [], g => some g
  | b :: bs, g => (saxpy g b).bind (run_threads bs)

/-- One pass of the `it` loop (lines 156-169): create the threads, let the
scheduler order them, run them all (the join loop waits for all of them). -/
def iteration (sched : Int → List buf_t → List buf_t) (n_threads m : Int)
    (g : Globals) : Option Globals :=
  (dispatch g.p n_threads m).bind fun bufs => run_threads (sched g.it bufs) g

/-- The first `k` passes of `for (it = 0; it < max_iters; it++)` (line 154). -/
def iterations (sched : Int → List buf_t → List buf_t) (n_threads m : Int) :
    Nat → Globals → Option Globals
  | 0, g => some { g with it := 0 }
  | k + 1, g =>
    (iterations sched n_threads m k g).bind fun g1 =>
    (iteration sched n_threads m g1).bind fun g2 =>
    (checked (g2.it + 1)).bind fun it1 =>
    some { g2 with it := it1 }

/-- Lines 121-124: the first `k` passes of the loop `Y_avgs[i] = 0.0`. -/
def zero_avgs : Nat → List ℚ → Option (List ℚ)
  | 0, A => some A
  | k + 1, A => (zero_avgs k A).bind fun A1 => store A1 k 0

/-- The computation of `main` from line 121 to line 170, for a configuration
`p`, `n_threads`, `max_iters`, the random `X`, `Y`, `a`, and the initial
(arbitrary) content `avgs0` of the block allocated for `Y_avgs`. -/
def run (sched : Int → List buf_t → List buf_t) (p n_threads max_iters : Int)
    (X Y avgs0 : List ℚ) (a : ℚ) : Option Globals :=
  (zero_avgs max_iters.toNat avgs0).bind fun avgs =>
  (c_div p n_threads).bind fun m =>
  iterations sched n_threads m max_iters.toNat ⟨X, Y, avgs, a, 0, p⟩

/-- The scheduler that runs the threads in creation order. -/
def fifo : Int → List buf_t → List buf_t := fun _ l => l

/-! ## The option loop of `main` -/

/-- The variables set from the command line: `p`, `seed`, `n_threads`, `max_iters`. -/
structure Config where
  p : Int
  seed : Int
  n_threads : Int
  max_iters : Int
  deriving DecidableEq

/-- The values of the variables before the option loop (lines 63-66). -/
def defaults : Config := ⟨10000000, 1, 2, 1000⟩

/-- How the option loop can end the program. -/
inductive Stop where
  | assert_failed
  | usage_exit
  deriving DecidableEq

/-- One pass of `getopt`: the character it returns and, for an option with an
argument, the `long` that `strtol (optarg, NULL, 10)` returns. -/
structure getopt_t where
  opt : Char
  value : Int

/-- The conversion of a `long` to `int` (on assignment to an `int` variable). -/
def to_int (v : Int) : Int := (v + 2147483648) % 4294967296 - 2147483648

/-- The conversion of a `long` to `unsigned int`. -/
def to_unsigned (v : Int) : Int := v % 4294967296

/-- The `switch (opt)` of lines 77-104. -/
def option_case (c : Config) (o : getopt_t) : Except Stop Config :=
  if o.opt = 'p' then
    if 0 < to_int o.value ∧ to_int o.value ≤ 2147483647 then
      .ok { c with p := to_int o.value }
    else .error Stop.assert_failed
  else if o.opt = 's' then .ok { c with seed := to_unsigned o.value }
  else if o.opt = 'n' then .ok { c with n_threads := to_int o.value }
  else if o.opt = 'i' then .ok { c with max_iters := to_int o.value }
  else if o.opt = ':' then .ok c
  else if o.opt = '?' then .error Stop.usage_exit
  else .ok c

/-- The loop `while ((opt = getopt (...)) != -1)` of lines 75-105, over the
results of the successive calls of `getopt`. -/
def parse_options : List getopt_t → Config → Except Stop Config
  | [], c => .ok c
  | o :: os, c =>
    match option_case c o with
    | .ok c1 => parse_options os c1
    | .error e => .error e

/-! ## The final report of `main` -/

/-- Line 186: the indexes `p - 3`, `p - 2`, `p - 1` read from `Y`. -/
def report_Y (p : Int) : List (Option Int) :=
  [checked (p - 3), checked (p - 2), checked (p - 1)]

/-- Lines 187-188: the indexes `max_iters - 3`, `max_iters - 2`, `max_iters - 1`
read from `Y_avgs`. -/
def report_Y_avgs (max_iters : Int) : List (Option Int) :=
  [checked (max_iters - 3), checked (max_iters - 2), checked (max_iters - 1)]

/-- An index, computed without overflow, that lies in a block of `len` elements. -/
def in_block (len : Int) : Option Int → Bool
  | some i => decide (0 ≤ i ∧ i < len)
  | none => false

/-- An index, computed without overflow, that is negative. -/
def negative : Option Int → Bool
  | some i => decide (i < 0)
  | none => false

/-! ## Closed forms used in the statements -/

/-- The value `Y[j] + a * X[j]` (entries outside a block read as `0`). -/
def fval (a : ℚ) (X Y : List ℚ) (j : Nat) : ℚ := Y.getD j 0 + a * X.getD j 0

/-- The block `Y` with `Y[j] + a * X[j]` at every index `j` selected by `c`. -/
def upd (a : ℚ) (X Y : List ℚ) (c : Nat → Bool) : List ℚ :=
  (List.range Y.length).map fun j => if c j then fval a X Y j else Y.getD j 0

/-- Does the range `b` hold the index `j`? -/
def holds (b : buf_t) (j : Nat) : Bool := decide (b.min ≤ (j : Int) ∧ (j : Int) < b.max)

/-- The sum of the new entries of the range `b`. -/
def rsum (a : ℚ) (X Y : List ℚ) (b : buf_t) : ℚ :=
  ∑ j in Finset.Ico b.min.toNat b.max.toNat, fval a X Y j

/-- The range `b` lies inside a block of `len` entries. -/
def inside (len : Nat) (b : buf_t) : Prop := 0 ≤ b.min ∧ b.min ≤ b.max ∧ b.max ≤ (len : Int)

/-- The ranges `b` and `c` share no index. -/
def disjoint (b c : buf_t) : Prop := ∀ j : Nat, ¬ (holds b j = true ∧ holds c j = true)

/-- The state after the threads of `l` have run on `g` (with `it = t`). -/
def after_threads (g : Globals) (t : Nat) (l : List buf_t) : Globals :=
  { g with
    Y := upd g.a g.X g.Y fun j => l.any fun b => holds b j
    Y_avgs := g.Y_avgs.set t
      (g.Y_avgs.getD t 0 + (l.map (rsum g.a g.X g.Y)).sum / (g.p : ℚ)) }

/-- The upper bound of range `k` when `p = P`, `n_threads = N`, `m = M`. -/
def nhi (P N M k : Nat) : Nat := if k + 1 = N then P else k * M + M

/-- The range `k` of the partition when `p = P`, `n_threads = N`, `m = M`. -/
def nbuf (P N M k : Nat) : buf_t := ⟨((k * M : Nat) : Int), ((nhi P N M k : Nat) : Int)⟩

/-- The ranges of the partition of `[0, P)` among `N` threads, in creation order. -/
def nbufs (P N : Nat) : List buf_t := (List.range N).map (nbuf P N (P / N))

/-- The single-threaded reference: `Y[i] + a * X[i]` at every index. -/
def axpy (a : ℚ) (X Y : List ℚ) : List ℚ := List.zipWith (fun y x => y + a * x) Y X

/-- The vector `Y[i] + k * a * X[i]`. -/
def axpy_k (a : ℚ) (X Y : List ℚ) (k : Nat) : List ℚ :=
  List.zipWith (fun y x => y + (k : ℚ) * a * x) Y X

/-- The state after one iteration on `g` (with `it = t`). -/
def after_iteration (g : Globals) (t : Nat) : Globals :=
  { g with
    Y := axpy g.a g.X g.Y
    Y_avgs := g.Y_avgs.set t (g.Y_avgs.getD t 0 + (axpy g.a g.X g.Y).sum / (g.p : ℚ)) }

/-- The block `Y_avgs` after `k` iterations, from the content `A`: slot `t < k`
has received the sum of `Y` as it stands after iteration `t`, divided by `p`. -/
def avgs_k (a : ℚ) (X Y : List ℚ) (p : Int) (A : List ℚ) (k : Nat) : List ℚ :=
  (List.range A.length).map fun t =>
    if t < k then A.getD t 0 + (axpy_k a X Y (t + 1)).sum / (p : ℚ) else A.getD t 0

/-- The schedulers of the model: each reorders the threads it is given. -/
def fair (sched : Int → List buf_t → List buf_t) : Prop := ∀ t l, (sched t l).Perm l

/-- The block `Y_avgs` at the end of a run of `K` iterations: slot `t` holds the
sum of `Y` as it stands after iteration `t`, divided by `p`. -/
def averages (a : ℚ) (X Y : List ℚ) (p : Int) (K : Nat) : List ℚ :=
  (List.range K).map fun t => (axpy_k a X Y (t + 1)).sum / (p : ℚ)

/-! ## Concrete `int`s for the examples -/

def c1 : c_int := ⟨1, by decide, by decide⟩

def c2 : c_int := ⟨2, by decide, by decide⟩

def c3 : c_int := ⟨3, by decide, by decide⟩

def c4 : c_int := ⟨4, by decide, by decide⟩

def c5 : c_int := ⟨5, by decide, by decide⟩

def c7 : c_int := ⟨7, by decide, by decide⟩

/-! ## The loop of `saxpy` -/

theorem upd_length (a : ℚ) (X Y : List ℚ) (c : Nat → Bool) :
    (upd a X Y c).length = Y.length := by
  simp [upd]

theorem upd_getD (a : ℚ) (X Y : List ℚ) (c : Nat → Bool) (j : Nat) (hj : j < Y.length) :
    (upd a X Y c).getD j 0 = if c j then fval a X Y j else Y.getD j 0 := by
  simp [upd, List.getD_eq_getElem?_getD, List.getElem?_map, List.getElem?_range hj]

/-- Two blocks of the same length with the same entries are equal. -/
theorem ext_getD (A B : List ℚ) (hl : A.length = B.length)
    (h : ∀ j, j < B.length → A.getD j 0 = B.getD j 0) : A = B := by
  apply List.ext_getElem hl
  intro j h1 h2
  have := h j h2
  simpa [List.getD_eq_getElem?_getD, List.getElem?_eq_getElem h1,
    List.getElem?_eq_getElem h2] using this

theorem load_nat (A : List ℚ) (j : Nat) (hj : j < A.length) :
    load A (j : Int) = some (A.getD j 0) := by
  simp [load, List.getD_eq_getElem?_getD, List.getElem?_eq_getElem hj]

theorem store_nat (A : List ℚ) (j : Nat) (v : ℚ) (hj : j < A.length) :
    store A (j : Int) v = some (A.set j v) := by
  simp [store, hj]

theorem getD_set (A : List ℚ) (i j : Nat) (v : ℚ) (hi : i < A.length) :
    (A.set i v).getD j 0 = if j = i then v else A.getD j 0 := by
  by_cases h : j = i
  · subst h; simp [List.getD_eq_getElem?_getD, List.getElem?_set, hi]
  · have h2 : ¬ i = j := fun e => h e.symm
    simp [List.getD_eq_getElem?_getD, List.getElem?_set, h, h2]

/-- The loop of `saxpy` on `[lo, hi)`: it never runs out of passes, rewrites
exactly the entries of the range and returns their sum. -/
theorem saxpy_loop_spec (X : List ℚ) (a : ℚ) (hi : Nat) (hX : hi ≤ X.length) :
    ∀ (n lo : Nat) (Y : List ℚ) (tmp : ℚ), lo + n = hi → hi ≤ Y.length →
      saxpy_loop X a (hi : Int) n (lo : Int) Y tmp =
        some (upd a X Y (fun j => decide (lo ≤ j ∧ j < hi)),
          tmp + ∑ j in Finset.Ico lo hi, fval a X Y j) := by
  intro n
  induction n with
  | zero =>
    intro lo Y tmp h hY
    have : lo = hi := by omega
    subst this
    simp only [saxpy_loop, lt_self_iff_false, if_false, Finset.Ico_self, Finset.sum_empty,
      add_zero]
    congr 2
    apply ext_getD
    · simp [upd_length]
    · intro j hj
      rw [upd_getD a X Y _ j (by simpa [upd_length] using hj)]
      have : ¬ (lo ≤ j ∧ j < lo) := by omega
      simp [this]
  | succ n ih =>
    intro lo Y tmp h hY
    have hlo : lo < hi := by omega
    have hlt : (lo : Int) < (hi : Int) := by exact_mod_cast hlo
    have hloY : lo < Y.length := by omega
    have hloX : lo < X.length := by omega
    simp only [saxpy_loop, hlt, if_true]
    rw [load_nat Y lo hloY, Option.some_bind, load_nat X lo hloX, Option.some_bind,
      store_nat Y lo _ hloY, Option.some_bind,
      load_nat _ lo (by simpa using hloY), Option.some_bind]
    have e : ((lo : Int) + 1) = ((lo + 1 : Nat) : Int) := by push_cast; ring
    rw [e, ih (lo + 1) _ _ (by omega) (by simpa using hY)]
    have hv : (Y.set lo (Y.getD lo 0 + a * X.getD lo 0)).getD lo 0 = fval a X Y lo := by
      rw [getD_set _ _ _ _ hloY]; simp [fval]
    congr 2
    · apply ext_getD
      · simp [upd_length]
      · intro j hj
        have hj2 : j < Y.length := by simpa [upd_length] using hj
        rw [upd_getD _ _ _ _ j (by simpa using hj2), upd_getD _ _ _ _ j hj2]
        by_cases h1 : j = lo
        · subst h1
          have c1 : ¬ (j + 1 ≤ j ∧ j < hi) := by omega
          have c2 : (j ≤ j ∧ j < hi) := by omega
          simp [-List.getD_eq_getElem?_getD, c1, c2, hv]
        · by_cases h2 : (lo ≤ j ∧ j < hi)
          · have c1 : (lo + 1 ≤ j ∧ j < hi) := by omega
            simp [-List.getD_eq_getElem?_getD, c1, h2, fval, getD_set _ _ _ _ hloY, h1]
          · have c1 : ¬ (lo + 1 ≤ j ∧ j < hi) := by omega
            simp [-List.getD_eq_getElem?_getD, c1, h2, getD_set _ _ _ _ hloY, h1]
    · rw [Finset.sum_eq_sum_Ico_succ_bot hlo, hv]
      have : ∑ j in Finset.Ico (lo + 1) hi,
          fval a X (Y.set lo (Y.getD lo 0 + a * X.getD lo 0)) j
          = ∑ j in Finset.Ico (lo + 1) hi, fval a X Y j := by
        apply Finset.sum_congr rfl
        intro j hj
        have : j ≠ lo := by
          have := (Finset.mem_Ico.mp hj).1
          omega
        simp [-List.getD_eq_getElem?_getD, fval, getD_set _ _ _ _ hloY, this]
      rw [this]; ring

/-! ## One thread, and the threads of one iteration -/

theorem holds_iff (b : buf_t) (j : Nat) :
    holds b j = true ↔ b.min ≤ (j : Int) ∧ (j : Int) < b.max := by
  simp [holds]

theorem saxpy_spec (g : Globals) (b : buf_t) (t : Nat) (hb : inside g.Y.length b)
    (hX : g.X.length = g.Y.length) (ht : g.it = (t : Int)) (htl : t < g.Y_avgs.length) :
    saxpy g b = some (after_threads g t [b]) := by
  obtain ⟨h0, h1, h2⟩ := hb
  obtain ⟨mn, mx⟩ := b
  simp only at h0 h1 h2
  obtain ⟨lo, rfl⟩ := Int.eq_ofNat_of_zero_le h0
  obtain ⟨hi, rfl⟩ := Int.eq_ofNat_of_zero_le (le_trans h0 h1)
  have hle : lo ≤ hi := by exact_mod_cast h1
  have hiY : hi ≤ g.Y.length := by exact_mod_cast h2
  have hn : ((hi : Int) - (lo : Int)).toNat = hi - lo := by omega
  unfold saxpy
  simp only [hn]
  rw [saxpy_loop_spec g.X g.a hi (by omega) (hi - lo) lo g.Y 0 (by omega) hiY,
    Option.some_bind, ht, load_nat _ t htl, Option.some_bind, store_nat _ t _ htl,
    Option.some_bind]
  simp only [after_threads, rsum, Int.toNat_ofNat, List.map_cons, List.map_nil,
    List.sum_cons, List.sum_nil, add_zero, zero_add, List.any_cons, List.any_nil,
    Bool.or_false, holds, Nat.cast_le, Nat.cast_lt, ← ht]

theorem set_getD_self (A : List ℚ) (t : Nat) (ht : t < A.length) :
    A.set t (A.getD t 0) = A := by
  apply ext_getD
  · simp
  · intro j hj
    rw [getD_set _ _ _ _ ht]
    split
    · next h => rw [h]
    · rfl

theorem upd_none (a : ℚ) (X Y : List ℚ) : upd a X Y (fun _ => false) = Y := by
  apply ext_getD
  · simp [upd_length]
  · intro j hj
    rw [upd_getD _ _ _ _ j hj]; simp

theorem rsum_congr (a : ℚ) (X Y Y1 : List ℚ) (c : buf_t)
    (h : ∀ j, holds c j = true → Y1.getD j 0 = Y.getD j 0) :
    rsum a X Y1 c = rsum a X Y c := by
  unfold rsum
  apply Finset.sum_congr rfl
  intro j hj
  have hj2 := Finset.mem_Ico.mp hj
  have : holds c j = true := by
    rw [holds_iff]; omega
  simp only [fval, h j this]

/-- The threads of a list of pairwise disjoint ranges inside the block, run in
the order of the list: every one returns, the entries of `Y` that some range
holds are updated once, and `Y_avgs[it]` receives the sum of the range sums
divided by `p`. -/
theorem run_threads_spec (l : List buf_t) :
    ∀ (g : Globals) (t : Nat), (∀ b ∈ l, inside g.Y.length b) → l.Pairwise disjoint →
      g.X.length = g.Y.length → g.it = (t : Int) → t < g.Y_avgs.length →
      run_threads l g = some (after_threads g t l) := by
  induction l with
  | nil =>
    intro g t _ _ _ _ htl
    simp only [run_threads, after_threads, List.any_nil, List.map_nil, List.sum_nil,
      zero_div, add_zero, upd_none, set_getD_self _ _ htl]
  | cons b bs ih =>
    intro g t hin hpw hX ht htl
    have hb := hin b (List.mem_cons_self _ _)
    rw [List.pairwise_cons] at hpw
    simp only [run_threads]
    rw [saxpy_spec g b t hb hX ht htl, Option.some_bind]
    have hlen : (after_threads g t [b]).Y.length = g.Y.length := by
      simp [after_threads, upd_length]
    rw [ih (after_threads g t [b]) t
      (by intro c hc; rw [hlen]; exact hin c (List.mem_cons_of_mem _ hc)) hpw.2
      (by rw [hlen]; exact hX) ht (by simpa [after_threads] using htl)]
    have hY1 : ∀ j, j < g.Y.length → (upd g.a g.X g.Y fun j => holds b j).getD j 0
        = if holds b j then fval g.a g.X g.Y j else g.Y.getD j 0 := by
      intro j hj; rw [upd_getD _ _ _ _ j hj]
    have hrs : ∀ c ∈ bs, rsum g.a g.X (upd g.a g.X g.Y fun j => holds b j) c
        = rsum g.a g.X g.Y c := by
      intro c hc
      apply rsum_congr
      intro j hj
      have hcin := hin c (List.mem_cons_of_mem _ hc)
      have hjl : j < g.Y.length := by
        have := (holds_iff c j).mp hj
        unfold inside at hcin
        omega
      rw [hY1 j hjl]
      have : holds b j ≠ true := fun hbj => hpw.1 c hc j ⟨hbj, hj⟩
      simp [this]
    have hmap : bs.map (rsum g.a g.X (upd g.a g.X g.Y fun j => holds b j))
        = bs.map (rsum g.a g.X g.Y) := List.map_congr_left hrs
    simp only [after_threads, List.any_cons, List.any_nil, Bool.or_false, List.map_cons,
      List.map_nil, List.sum_cons, List.sum_nil, add_zero, hmap, List.set_set,
      getD_set _ _ _ _ htl, if_true]
    congr 2
    · apply ext_getD
      · simp [upd_length]
      · intro j hj
        have hj2 : j < g.Y.length := by simpa [upd_length] using hj
        rw [upd_getD _ _ _ _ j (by simpa [upd_length] using hj2), hY1 j hj2,
          upd_getD _ _ _ _ j hj2]
        by_cases h1 : (bs.any fun c => holds c j) = true
        · have h2 : holds b j ≠ true := by
            intro hbj
            obtain ⟨c, hc, hcj⟩ := List.any_eq_true.mp h1
            exact hpw.1 c hc j ⟨hbj, hcj⟩
          simp [-List.getD_eq_getElem?_getD, h1, h2, fval]
          rw [hY1 j hj2]; simp [-List.getD_eq_getElem?_getD, h2]
        · simp [-List.getD_eq_getElem?_getD, h1]
    · congr 1
      ring

/-! ## The partition -/

theorem checked_nat (x : Nat) (h : x ≤ 2147483647) : checked (x : Int) = some (x : Int) := by
  have : INT_MIN ≤ (x : Int) ∧ (x : Int) ≤ INT_MAX := by
    simp only [INT_MIN, INT_MAX]; omega
  simp [checked, this]

theorem mul_step_le (N M k : Nat) (hk : k + 1 ≤ N) : k * M + M ≤ N * M := by
  calc k * M + M = (k + 1) * M := by ring
    _ ≤ N * M := Nat.mul_le_mul_right M hk

theorem nhi_le (P N M k : Nat) (hNM : N * M ≤ P) (hk : k < N) : nhi P N M k ≤ P := by
  unfold nhi
  split
  · exact le_refl _
  · exact le_trans (mul_step_le N M k hk) hNM

theorem lo_le_nhi (P N M k : Nat) (hNM : N * M ≤ P) (hk : k < N) : k * M ≤ nhi P N M k := by
  unfold nhi
  split
  · exact le_trans (le_trans (Nat.le_add_right _ M) (mul_step_le N M k hk)) hNM
  · exact Nat.le_add_right _ _

theorem mk_buf_eq (P N M k : Nat) (hP : P ≤ 2147483647) (hN : N ≤ 2147483647)
    (hNM : N * M ≤ P) (hk : k < N) :
    mk_buf (P : Int) (N : Int) (M : Int) (k : Int) = some (nbuf P N M k) := by
  have h1 : k * M + M ≤ P := le_trans (mul_step_le N M k hk) hNM
  have e1 : (k : Int) * (M : Int) = ((k * M : Nat) : Int) := by push_cast; ring
  have e2 : (k : Int) + 1 = ((k + 1 : Nat) : Int) := by push_cast; ring
  have e3 : ((k * M : Nat) : Int) + (M : Int) = ((k * M + M : Nat) : Int) := by push_cast; ring
  unfold mk_buf
  rw [e1, checked_nat _ (by omega), Option.some_bind, e2, checked_nat _ (by omega),
    Option.some_bind]
  by_cases hl : k + 1 = N
  · have : ((k + 1 : Nat) : Int) = (N : Int) := by exact_mod_cast hl
    simp [this, nbuf, nhi, hl]
  · have : ¬ ((k + 1 : Nat) : Int) = (N : Int) := by exact_mod_cast hl
    rw [if_neg this, e3, checked_nat _ (by omega)]
    simp [nbuf, nhi, hl]

theorem created_eq (P N M : Nat) (hP : P ≤ 2147483647) (hN : N ≤ 2147483647)
    (hNM : N * M ≤ P) :
    ∀ k, k ≤ N → created (P : Int) (N : Int) (M : Int) k
      = some ((List.range k).map (nbuf P N M)) := by
  intro k
  induction k with
  | zero => intro _; simp [created]
  | succ k ih =>
    intro hk
    simp only [created]
    rw [ih (by omega), Option.some_bind, mk_buf_eq P N M k hP hN hNM (by omega),
      Option.some_bind, List.range_succ, List.map_append]
    rfl

theorem c_div_nat (P N : Nat) (hP : P ≤ 2147483647) (hN : 0 < N) :
    c_div (P : Int) (N : Int) = some ((P / N : Nat) : Int) := by
  have h0 : ¬ ((N : Int) = 0) := by omega
  have e : Int.tdiv (P : Int) (N : Int) = ((P / N : Nat) : Int) := by
    rw [Int.tdiv_eq_ediv (by omega) (by omega)]; norm_cast
  have hle : P / N ≤ P := Nat.div_le_self P N
  unfold c_div
  rw [if_neg h0, e, checked_nat _ (by omega)]

theorem dispatch_nat (P N : Nat) (hP : P ≤ 2147483647) (hN : N ≤ 2147483647) :
    dispatch (P : Int) (N : Int) ((P / N : Nat) : Int) = some (nbufs P N) := by
  unfold dispatch nbufs
  rw [Int.toNat_ofNat]
  exact created_eq P N (P / N) hP hN (Nat.mul_div_le P N) N (le_refl _)

theorem partition_nat (P N : Nat) (hP : P ≤ 2147483647) (hN0 : 0 < N) (hN : N ≤ 2147483647) :
    partition (P : Int) (N : Int) = some (nbufs P N) := by
  unfold partition
  rw [c_div_nat P N hP hN0, Option.some_bind, dispatch_nat P N hP hN]

theorem nbufs_length (P N : Nat) : (nbufs P N).length = N := by
  simp [nbufs]

theorem nbufs_getElem? (P N k : Nat) (hk : k < N) :
    (nbufs P N)[k]? = some (nbuf P N (P / N) k) := by
  simp [nbufs, List.getElem?_map, List.getElem?_range hk]

theorem nbufs_mem (P N : Nat) (b : buf_t) :
    b ∈ nbufs P N ↔ ∃ k, k < N ∧ b = nbuf P N (P / N) k := by
  simp only [nbufs, List.mem_map, List.mem_range]
  constructor
  · rintro ⟨k, hk, rfl⟩; exact ⟨k, hk, rfl⟩
  · rintro ⟨k, hk, rfl⟩; exact ⟨k, hk, rfl⟩

/-- A range that comes earlier in creation order ends before a later one starts. -/
theorem nhi_le_lo (P N M j k : Nat) (hjk : j < k) (hk : k < N) : nhi P N M j ≤ k * M := by
  unfold nhi
  rw [if_neg (by omega)]
  exact mul_step_le k M j hjk

theorem nbuf_inside (P N M k : Nat) (hNM : N * M ≤ P) (hk : k < N) :
    inside P (nbuf P N M k) := by
  have h1 := nhi_le P N M k hNM hk
  have h2 := lo_le_nhi P N M k hNM hk
  unfold inside nbuf
  simp only
  omega

/-- Every index below `P` lies in one of the `N` ranges. -/
theorem nbuf_cover (P N M j : Nat) (hN : 0 < N) (hj : j < P) :
    ∃ k, k < N ∧ k * M ≤ j ∧ j < nhi P N M k := by
  by_cases h : j < (N - 1) * M
  · have hM : 0 < M := by
      rcases Nat.eq_zero_or_pos M with h0 | h0
      · rw [h0] at h; simp at h
      · exact h0
    have h1 : j / M * M ≤ j := Nat.div_mul_le_self j M
    have h2 : j < j / M * M + M := by
      have := Nat.lt_div_mul_add (a := j) hM
      omega
    have h3 : j / M < N - 1 := by
      apply Nat.lt_of_mul_lt_mul_right (a := M)
      omega
    refine ⟨j / M, by omega, h1, ?_⟩
    unfold nhi
    rw [if_neg (by omega)]
    exact h2
  · refine ⟨N - 1, by omega, by omega, ?_⟩
    unfold nhi
    rw [if_pos (by omega)]
    exact hj

theorem disjoint_symm {b c : buf_t} (h : disjoint b c) : disjoint c b :=
  fun j hj => h j ⟨hj.2, hj.1⟩

theorem nbuf_disjoint (P N M j k : Nat) (hjk : j < k) (hk : k < N) :
    disjoint (nbuf P N M j) (nbuf P N M k) := by
  intro i hi
  have h := nhi_le_lo P N M j k hjk hk
  rw [holds_iff, holds_iff] at hi
  simp only [nbuf] at hi
  omega

theorem nbufs_pairwise (P N : Nat) : (nbufs P N).Pairwise disjoint := by
  unfold nbufs
  rw [List.pairwise_map]
  have h := List.pairwise_lt_range N
  refine List.Pairwise.imp_of_mem ?_ h
  intro j k _ hk hjk
  exact nbuf_disjoint P N (P / N) j k hjk (List.mem_range.mp hk)

/-! ## One iteration -/

theorem sum_eq_sum_getD (L : List ℚ) : L.sum = ∑ j in Finset.range L.length, L.getD j 0 := by
  induction L with
  | nil => simp
  | cons x L ih =>
    rw [List.sum_cons, List.length_cons, Finset.sum_range_succ', ih]
    simp [add_comm]

theorem axpy_length (a : ℚ) (X Y : List ℚ) (h : X.length = Y.length) :
    (axpy a X Y).length = Y.length := by
  simp [axpy, h]

theorem axpy_getD (a : ℚ) (X Y : List ℚ) (j : Nat) (hX : j < X.length) (hY : j < Y.length) :
    (axpy a X Y).getD j 0 = fval a X Y j := by
  simp [axpy, fval, List.getD_eq_getElem?_getD, List.getElem?_zipWith,
    List.getElem?_eq_getElem hX, List.getElem?_eq_getElem hY]

theorem upd_all (a : ℚ) (X Y : List ℚ) (c : Nat → Bool) (h : X.length = Y.length)
    (hc : ∀ j, j < Y.length → c j = true) : upd a X Y c = axpy a X Y := by
  apply ext_getD
  · rw [upd_length, axpy_length a X Y h]
  · intro j hj
    have hj2 : j < Y.length := by rwa [axpy_length a X Y h] at hj
    rw [upd_getD _ _ _ _ j hj2, axpy_getD a X Y j (by omega) hj2, hc j hj2]
    rfl

/-- The range sums of the first `k` ranges (none of them the last) add up to
the sum over `[0, k * M)`. -/
theorem rsum_initial (a : ℚ) (X Y : List ℚ) (P N M : Nat) :
    ∀ k, k < N → (((List.range k).map (nbuf P N M)).map (rsum a X Y)).sum
      = ∑ j in Finset.range (k * M), fval a X Y j := by
  intro k
  induction k with
  | zero => intro _; simp
  | succ k ih =>
    intro hk
    rw [List.range_succ, List.map_append, List.map_append, List.sum_append, ih (by omega)]
    have e : rsum a X Y (nbuf P N M k)
        = ∑ j in Finset.Ico (k * M) ((k + 1) * M), fval a X Y j := by
      simp only [rsum, nbuf, nhi, Int.toNat_ofNat]
      rw [if_neg (by omega)]
      congr 2
      ring
    simp only [List.map_cons, List.map_nil, List.sum_cons, List.sum_nil, add_zero, e]
    exact Finset.sum_range_add_sum_Ico _ (Nat.mul_le_mul_right M (Nat.le_succ k))

theorem rsum_nbufs (a : ℚ) (X Y : List ℚ) (P N : Nat) (hN : 0 < N) :
    ((nbufs P N).map (rsum a X Y)).sum = ∑ j in Finset.range P, fval a X Y j := by
  obtain ⟨k, rfl⟩ : ∃ k, N = k + 1 := ⟨N - 1, by omega⟩
  have hle : k * (P / (k + 1)) ≤ P :=
    le_trans (Nat.mul_le_mul_right _ (Nat.le_succ k)) (Nat.mul_div_le P (k + 1))
  unfold nbufs
  rw [List.range_succ, List.map_append, List.map_append, List.sum_append,
    rsum_initial a X Y P (k + 1) (P / (k + 1)) k (by omega)]
  have e : rsum a X Y (nbuf P (k + 1) (P / (k + 1)) k)
      = ∑ j in Finset.Ico (k * (P / (k + 1))) P, fval a X Y j := by
    simp only [rsum, nbuf, nhi, Int.toNat_ofNat, if_true]
  simp only [List.map_cons, List.map_nil, List.sum_cons, List.sum_nil, add_zero, e]
  exact Finset.sum_range_add_sum_Ico _ hle

/-- What the threads of one iteration leave behind, whatever the order in which
they run: the state `after_iteration`. -/
theorem after_threads_perm (g : Globals) (t P N : Nat) (l : List buf_t)
    (hl : l.Perm (nbufs P N)) (hN : 0 < N) (hX : g.X.length = P) (hY : g.Y.length = P) :
    after_threads g t l = after_iteration g t := by
  have hc : ∀ j, j < g.Y.length → (l.any fun b => holds b j) = true := by
    intro j hj
    obtain ⟨k, hk, h1, h2⟩ := nbuf_cover P N (P / N) j hN (by omega)
    rw [List.any_eq_true]
    refine ⟨nbuf P N (P / N) k, hl.mem_iff.mpr ((nbufs_mem P N _).mpr ⟨k, hk, rfl⟩), ?_⟩
    rw [holds_iff]
    simp only [nbuf]
    omega
  have hs : (l.map (rsum g.a g.X g.Y)).sum = (axpy g.a g.X g.Y).sum := by
    rw [(hl.map _).sum_eq, rsum_nbufs _ _ _ P N hN, sum_eq_sum_getD,
      axpy_length _ _ _ (by omega), hY]
    apply Finset.sum_congr rfl
    intro j hj
    have := Finset.mem_range.mp hj
    rw [axpy_getD _ _ _ j (by omega) (by omega)]
  have hu := upd_all g.a g.X g.Y (fun j => l.any fun b => holds b j) (by omega) hc
  simp only [after_threads, after_iteration, hu, hs]

theorem run_threads_perm (g : Globals) (t P N : Nat) (l : List buf_t)
    (hl : l.Perm (nbufs P N)) (hN : 0 < N) (hX : g.X.length = P) (hY : g.Y.length = P)
    (ht : g.it = (t : Int)) (htl : t < g.Y_avgs.length) :
    run_threads l g = some (after_iteration g t) := by
  rw [← after_threads_perm g t P N l hl hN hX hY]
  apply run_threads_spec l g t
  · intro b hb
    obtain ⟨k, hk, rfl⟩ := (nbufs_mem P N b).mp (hl.mem_iff.mp hb)
    rw [hY]
    exact nbuf_inside P N (P / N) k (Nat.mul_div_le P N) hk
  · exact (hl.pairwise_iff (fun h => disjoint_symm h)).mpr (nbufs_pairwise P N)
  · omega
  · exact ht
  · exact htl

theorem iteration_spec (sched : Int → List buf_t → List buf_t) (hs : fair sched)
    (g : Globals) (t P N : Nat) (hP : P ≤ 2147483647) (hN0 : 0 < N) (hN : N ≤ 2147483647)
    (hp : g.p = (P : Int)) (hX : g.X.length = P) (hY : g.Y.length = P)
    (ht : g.it = (t : Int)) (htl : t < g.Y_avgs.length) :
    iteration sched (N : Int) ((P / N : Nat) : Int) g = some (after_iteration g t) := by
  unfold iteration
  rw [hp, dispatch_nat P N hP hN, Option.some_bind]
  exact run_threads_perm g t P N _ (hs _ _) hN0 hX hY ht htl

/-! ## The iterations -/

theorem axpy_k_zero (a : ℚ) (X Y : List ℚ) (h : X.length = Y.length) :
    axpy_k a X Y 0 = Y := by
  induction Y generalizing X with
  | nil => simp [axpy_k]
  | cons y Y ih =>
    cases X with
    | nil => simp at h
    | cons x X =>
      have := ih X (by simpa using h)
      simp only [axpy_k, Nat.cast_zero, zero_mul, add_zero] at this ⊢
      simp [this]

theorem axpy_axpy_k (a : ℚ) (X Y : List ℚ) (k : Nat) :
    axpy a X (axpy_k a X Y k) = axpy_k a X Y (k + 1) := by
  induction Y generalizing X with
  | nil => simp [axpy, axpy_k]
  | cons y Y ih =>
    cases X with
    | nil => simp [axpy, axpy_k]
    | cons x X =>
      have := ih X
      simp only [axpy, axpy_k] at this ⊢
      simp only [List.zipWith_cons_cons, this, List.cons.injEq, and_true]
      push_cast
      ring

theorem axpy_k_length (a : ℚ) (X Y : List ℚ) (k : Nat) (h : X.length = Y.length) :
    (axpy_k a X Y k).length = Y.length := by
  simp [axpy_k, h]

theorem avgs_k_length (a : ℚ) (X Y : List ℚ) (p : Int) (A : List ℚ) (k : Nat) :
    (avgs_k a X Y p A k).length = A.length := by
  simp [avgs_k]

theorem avgs_k_getD (a : ℚ) (X Y : List ℚ) (p : Int) (A : List ℚ) (k t : Nat)
    (ht : t < A.length) :
    (avgs_k a X Y p A k).getD t 0
      = if t < k then A.getD t 0 + (axpy_k a X Y (t + 1)).sum / (p : ℚ) else A.getD t 0 := by
  simp [avgs_k, List.getD_eq_getElem?_getD, List.getElem?_map, List.getElem?_range ht]

theorem avgs_k_zero (a : ℚ) (X Y : List ℚ) (p : Int) (A : List ℚ) :
    avgs_k a X Y p A 0 = A := by
  apply ext_getD
  · rw [avgs_k_length]
  · intro j hj
    rw [avgs_k_getD _ _ _ _ _ _ _ hj]; simp

theorem avgs_k_succ (a : ℚ) (X Y : List ℚ) (p : Int) (A : List ℚ) (k : Nat)
    (hk : k < A.length) :
    (avgs_k a X Y p A k).set k
        ((avgs_k a X Y p A k).getD k 0 + (axpy_k a X Y (k + 1)).sum / (p : ℚ))
      = avgs_k a X Y p A (k + 1) := by
  have hk2 : k < (avgs_k a X Y p A k).length := by rw [avgs_k_length]; exact hk
  apply ext_getD
  · simp [avgs_k_length]
  · intro j hj
    have hj2 : j < A.length := by rwa [avgs_k_length] at hj
    rw [getD_set _ _ _ _ hk2, avgs_k_getD _ _ _ _ _ _ _ hj2, avgs_k_getD _ _ _ _ _ _ _ hk,
      avgs_k_getD _ _ _ _ _ _ _ hj2]
    by_cases h1 : j = k
    · subst h1; simp
    · by_cases h2 : j < k
      · have : j < k + 1 := by omega
        simp [-List.getD_eq_getElem?_getD, h1, h2, this]
      · have : ¬ j < k + 1 := by omega
        simp [-List.getD_eq_getElem?_getD, h1, h2, this]

/-- The first `k` passes of the `it` loop all return, and leave `Y` at
`Y + k * a * X`, the slots below `k` of `Y_avgs` filled, and `it = k`. -/
theorem iterations_spec (sched : Int → List buf_t → List buf_t) (hs : fair sched)
    (X Y A : List ℚ) (a : ℚ) (it0 : Int) (P N : Nat) (hP : P ≤ 2147483647) (hN0 : 0 < N)
    (hN : N ≤ 2147483647) (hX : X.length = P) (hY : Y.length = P) :
    ∀ k, k ≤ A.length → k ≤ 2147483647 →
      iterations sched (N : Int) ((P / N : Nat) : Int) k ⟨X, Y, A, a, it0, (P : Int)⟩
        = some ⟨X, axpy_k a X Y k, avgs_k a X Y (P : Int) A k, a, (k : Int), (P : Int)⟩ := by
  intro k
  induction k with
  | zero =>
    intro _ _
    simp [iterations, axpy_k_zero a X Y (by omega), avgs_k_zero]
  | succ k ih =>
    intro hk hk2
    simp only [iterations]
    rw [ih (by omega) (by omega), Option.some_bind,
      iteration_spec sched hs _ k P N hP hN0 hN rfl hX
        (by rw [axpy_k_length a X Y k (by omega)]; exact hY) rfl
        (by rw [avgs_k_length]; omega),
      Option.some_bind]
    have e : ((k : Int) + 1) = ((k + 1 : Nat) : Int) := by push_cast; ring
    simp only [after_iteration, e]
    rw [checked_nat _ hk2, Option.some_bind, axpy_axpy_k, avgs_k_succ _ _ _ _ _ _ (by omega)]

/-! ## The whole run -/

theorem zero_avgs_initial (A : List ℚ) :
    ∀ k, k ≤ A.length →
      zero_avgs k A = some ((List.range A.length).map fun j => if j < k then 0 else A.getD j 0) := by
  intro k
  induction k with
  | zero =>
    intro _
    simp only [zero_avgs, Nat.not_lt_zero, if_false]
    congr 1
    apply ext_getD
    · simp
    · intro j hj
      have hj2 : j < A.length := by simpa using hj
      simp [List.getD_eq_getElem?_getD, List.getElem?_map, List.getElem?_range hj2]
  | succ k ih =>
    intro hk
    simp only [zero_avgs]
    rw [ih (by omega), Option.some_bind, store_nat _ k 0 (by simpa using hk)]
    congr 1
    apply ext_getD
    · simp
    · intro j hj
      have hj2 : j < A.length := by simpa using hj
      rw [getD_set _ _ _ _ (by simpa using hk)]
      by_cases h1 : j = k
      · subst h1
        simp [List.getD_eq_getElem?_getD, List.getElem?_map, List.getElem?_range hj2]
      · by_cases h2 : j < k
        · have : j < k + 1 := by omega
          simp [List.getD_eq_getElem?_getD, List.getElem?_map, List.getElem?_range hj2,
            h1, h2, this]
        · have : ¬ j < k + 1 := by omega
          simp [List.getD_eq_getElem?_getD, List.getElem?_map, List.getElem?_range hj2,
            h1, h2, this]

theorem zero_avgs_spec (A : List ℚ) : zero_avgs A.length A = some (List.replicate A.length 0) := by
  rw [zero_avgs_initial A A.length (le_refl _)]
  congr 1
  apply ext_getD
  · simp
  · intro j hj
    have hj2 : j < A.length := by simpa using hj
    simp [List.getD_eq_getElem?_getD, List.getElem?_map, List.getElem?_range hj2, hj2,
      List.getElem?_replicate]

theorem avgs_k_replicate (a : ℚ) (X Y : List ℚ) (p : Int) (K : Nat) :
    avgs_k a X Y p (List.replicate K 0) K = averages a X Y p K := by
  unfold avgs_k averages
  rw [List.length_replicate]
  apply List.map_congr_left
  intro t ht
  have := List.mem_range.mp ht
  simp [List.getD_eq_getElem?_getD, List.getElem?_replicate, this]

/-- The run returns, with `Y + K * a * X` in `Y` and the averages in `Y_avgs`. -/
theorem run_spec (sched : Int → List buf_t → List buf_t) (hs : fair sched)
    (X Y A : List ℚ) (a : ℚ) (P N K : Nat) (hP : P ≤ 2147483647) (hN0 : 0 < N)
    (hN : N ≤ 2147483647) (hK : K ≤ 2147483647) (hX : X.length = P) (hY : Y.length = P)
    (hA : A.length = K) :
    run sched (P : Int) (N : Int) (K : Int) X Y A a
      = some ⟨X, axpy_k a X Y K, averages a X Y (P : Int) K, a, (K : Int), (P : Int)⟩ := by
  unfold run
  rw [Int.toNat_ofNat, ← hA, zero_avgs_spec, Option.some_bind, c_div_nat P N hP hN0,
    Option.some_bind,
    iterations_spec sched hs X Y _ a 0 P N hP hN0 hN hX hY A.length (by simp) (by omega),
    avgs_k_replicate]

theorem c_int_nat (x : c_int) (h : 0 ≤ x.val) : ∃ n : Nat, x.val = (n : Int) ∧ n ≤ 2147483647 := by
  obtain ⟨n, hn⟩ := Int.eq_ofNat_of_zero_le h
  have := x.le_max
  simp only [INT_MAX] at this
  exact ⟨n, hn, by omega⟩

theorem axpy_k_getD (a : ℚ) (X Y : List ℚ) (k j : Nat) (hX : j < X.length) (hY : j < Y.length) :
    (axpy_k a X Y k).getD j 0 = Y.getD j 0 + (k : ℚ) * a * X.getD j 0 := by
  simp [axpy_k, List.getD_eq_getElem?_getD, List.getElem?_zipWith,
    List.getElem?_eq_getElem hX, List.getElem?_eq_getElem hY]

/-! ## The partitioner -/

theorem nbufs_get (P N : Nat) (k : Fin (nbufs P N).length) :
    (nbufs P N).get k = nbuf P N (P / N) k.val := by
  simp [nbufs]

/-- C1 (coverage): for `p > 0` and `n_threads >= 1` the dispatch loop returns
`n_threads` ranges; each satisfies `0 <= min <= max <= p`, every index of
`[0, p)` lies in exactly one of them, and no two of them share an index. -/
theorem partition_covers (p n_threads : c_int) (hp : 0 < p.val) (hn : 1 ≤ n_threads.val) :
    ∃ bufs, partition p.val n_threads.val = some bufs ∧
      (bufs.length : Int) = n_threads.val ∧
      (∀ b ∈ bufs, 0 ≤ b.min ∧ b.min ≤ b.max ∧ b.max ≤ p.val) ∧
      (∀ i : Int, 0 ≤ i → i < p.val →
        ∃! k : Fin bufs.length, (bufs.get k).min ≤ i ∧ i < (bufs.get k).max) ∧
      (∀ j k : Fin bufs.length, j ≠ k → ∀ i : Int,
        ¬ ((bufs.get j).min ≤ i ∧ i < (bufs.get j).max ∧
           (bufs.get k).min ≤ i ∧ i < (bufs.get k).max)) := by
  obtain ⟨P, hPe, hP⟩ := c_int_nat p (by omega)
  obtain ⟨N, hNe, hN⟩ := c_int_nat n_threads (by omega)
  rw [hPe] at hp
  rw [hNe] at hn
  rw [hPe, hNe]
  have hN0 : 0 < N := by omega
  have hdis : ∀ j k : Fin (nbufs P N).length, j.val < k.val → ∀ i : Int,
      ¬ (((nbufs P N).get j).min ≤ i ∧ i < ((nbufs P N).get j).max ∧
         ((nbufs P N).get k).min ≤ i ∧ i < ((nbufs P N).get k).max) := by
    intro j k hjk i hi
    have hk : k.val < N := k.isLt.trans_eq (nbufs_length P N)
    have h := nhi_le_lo P N (P / N) j.val k.val hjk hk
    rw [nbufs_get, nbufs_get] at hi
    simp only [nbuf] at hi
    omega
  have hdis2 : ∀ j k : Fin (nbufs P N).length, j ≠ k → ∀ i : Int,
      ¬ (((nbufs P N).get j).min ≤ i ∧ i < ((nbufs P N).get j).max ∧
         ((nbufs P N).get k).min ≤ i ∧ i < ((nbufs P N).get k).max) := by
    intro j k hjk i hi
    have hne : j.val ≠ k.val := fun e => hjk (Fin.ext e)
    rcases Nat.lt_or_gt_of_ne hne with h | h
    · exact hdis j k h i hi
    · exact hdis k j h i ⟨hi.2.2.1, hi.2.2.2, hi.1, hi.2.1⟩
  refine ⟨nbufs P N, partition_nat P N hP hN0 hN, by rw [nbufs_length], ?_, ?_, hdis2⟩
  · intro b hb
    obtain ⟨k, hk, rfl⟩ := (nbufs_mem P N b).mp hb
    exact nbuf_inside P N (P / N) k (Nat.mul_div_le P N) hk
  · intro i hi0 hiP
    obtain ⟨j, rfl⟩ := Int.eq_ofNat_of_zero_le hi0
    obtain ⟨k, hk, h1, h2⟩ := nbuf_cover P N (P / N) j hN0 (by omega)
    have hkl : k < (nbufs P N).length := by rw [nbufs_length]; exact hk
    have hin : ((nbufs P N).get ⟨k, hkl⟩).min ≤ (j : Int) ∧
        (j : Int) < ((nbufs P N).get ⟨k, hkl⟩).max := by
      rw [nbufs_get]
      simp only [nbuf]
      omega
    refine ⟨⟨k, hkl⟩, hin, ?_⟩
    intro k2 hk2
    by_contra hne
    exact hdis2 k2 ⟨k, hkl⟩ hne (j : Int) ⟨hk2.1, hk2.2, hin.1, hin.2⟩

/-- C1 at `p = 7`, `n_threads = 3`. -/
theorem partition_covers_witness :
    0 < c7.val ∧ 1 ≤ c3.val ∧
    ∃ bufs, partition c7.val c3.val = some bufs ∧
      (bufs.length : Int) = c3.val ∧
      (∀ b ∈ bufs, 0 ≤ b.min ∧ b.min ≤ b.max ∧ b.max ≤ c7.val) ∧
      (∀ i : Int, 0 ≤ i → i < c7.val →
        ∃! k : Fin bufs.length, (bufs.get k).min ≤ i ∧ i < (bufs.get k).max) ∧
      (∀ j k : Fin bufs.length, j ≠ k → ∀ i : Int,
        ¬ ((bufs.get j).min ≤ i ∧ i < (bufs.get j).max ∧
           (bufs.get k).min ≤ i ∧ i < (bufs.get k).max)) :=
  ⟨by decide, by decide, partition_covers c7 c3 (by decide) (by decide)⟩

/-- C7 (shape of the partition): for `p > 0` and `n_threads >= 1` the ranges
are built without overflow, the first starts at `0`, the last ends at `p`, each
starts where the one before ends at `k * (p / n_threads)`, each but the last has
`p / n_threads` elements, the last has `p / n_threads + p % n_threads`, and no
product `k * m` or sum `min_k + m` exceeds `p`. -/
theorem partition_contiguous (p n_threads : c_int) (hp : 0 < p.val)
    (hn : 1 ≤ n_threads.val) :
    ∃ bufs, partition p.val n_threads.val = some bufs ∧
      (bufs.length : Int) = n_threads.val ∧
      bufs.head?.map (fun b => b.min) = some 0 ∧
      bufs.getLast?.map (fun b => b.max) = some p.val ∧
      (∀ (k : Nat) (b : buf_t), bufs[k]? = some b →
        b.min = (k : Int) * (p.val / n_threads.val)) ∧
      (∀ (k : Nat) (b c : buf_t), bufs[k]? = some b → bufs[k + 1]? = some c →
        c.min = b.max ∧ b.max - b.min = p.val / n_threads.val) ∧
      (∀ b : buf_t, bufs.getLast? = some b →
        b.max - b.min = p.val / n_threads.val + p.val % n_threads.val) ∧
      (∀ k : Nat, (k : Int) < n_threads.val →
        (k : Int) * (p.val / n_threads.val) ≤ p.val ∧
        (k : Int) * (p.val / n_threads.val) + p.val / n_threads.val ≤ p.val) := by
  obtain ⟨P, hPe, hP⟩ := c_int_nat p (by omega)
  obtain ⟨N, hNe, hN⟩ := c_int_nat n_threads (by omega)
  rw [hPe] at hp
  rw [hNe] at hn
  rw [hPe, hNe]
  have hN0 : 0 < N := by omega
  have hdiv : ((P : Int) / (N : Int)) = ((P / N : Nat) : Int) := by norm_cast
  have hmod : ((P : Int) % (N : Int)) = ((P % N : Nat) : Int) := by norm_cast
  have hlast : (nbufs P N).getLast? = some (nbuf P N (P / N) (N - 1)) := by
    rw [List.getLast?_eq_getElem?, nbufs_length, nbufs_getElem? P N (N - 1) (by omega)]
  have hdm : N * (P / N) + P % N = P := Nat.div_add_mod P N
  have hN1 : (N - 1) * (P / N) + P / N = N * (P / N) := by
    obtain ⟨k, rfl⟩ : ∃ k, N = k + 1 := ⟨N - 1, by omega⟩
    simp only [Nat.add_sub_cancel]; ring
  refine ⟨nbufs P N, partition_nat P N hP hN0 hN, by rw [nbufs_length], ?_, ?_, ?_, ?_, ?_, ?_⟩
  · rw [List.head?_eq_getElem?, nbufs_getElem? P N 0 hN0]
    simp [nbuf]
  · rw [hlast]
    have : (N - 1) + 1 = N := by omega
    simp [nbuf, nhi, this]
  · intro k b hb
    have hk : k < N := by
      have := (List.getElem?_eq_some_iff.mp hb).1; rwa [nbufs_length] at this
    rw [nbufs_getElem? P N k hk] at hb
    cases hb
    rw [hdiv]
    simp only [nbuf]
    push_cast; ring
  · intro k b c hb hc
    have hk : k + 1 < N := by
      have := (List.getElem?_eq_some_iff.mp hc).1; rwa [nbufs_length] at this
    rw [nbufs_getElem? P N k (by omega)] at hb
    rw [nbufs_getElem? P N (k + 1) hk] at hc
    cases hb; cases hc
    rw [hdiv]
    have e : (k + 1) * (P / N) = k * (P / N) + P / N := by ring
    simp only [nbuf, nhi]
    rw [if_neg (by omega), e]
    push_cast
    constructor
    · rfl
    · ring
  · intro b hb
    rw [hlast] at hb
    cases hb
    rw [hdiv, hmod]
    have : (N - 1) + 1 = N := by omega
    simp only [nbuf, nhi, this, if_true]
    omega
  · intro k hk
    have hk2 : k < N := by exact_mod_cast hk
    have h1 := mul_step_le N (P / N) k hk2
    have h2 := Nat.mul_div_le P N
    rw [hdiv]
    constructor
    · have : k * (P / N) ≤ P := le_trans (Nat.le_add_right _ _) (le_trans h1 h2)
      exact_mod_cast this
    · have : k * (P / N) + P / N ≤ P := le_trans h1 h2
      exact_mod_cast this

/-- C7 at `p = 7`, `n_threads = 3`. -/
theorem partition_contiguous_witness :
    0 < c7.val ∧ 1 ≤ c3.val ∧
    ∃ bufs, partition c7.val c3.val = some bufs ∧
      (bufs.length : Int) = c3.val ∧
      bufs.head?.map (fun b => b.min) = some 0 ∧
      bufs.getLast?.map (fun b => b.max) = some c7.val ∧
      (∀ (k : Nat) (b : buf_t), bufs[k]? = some b →
        b.min = (k : Int) * (c7.val / c3.val)) ∧
      (∀ (k : Nat) (b c : buf_t), bufs[k]? = some b → bufs[k + 1]? = some c →
        c.min = b.max ∧ b.max - b.min = c7.val / c3.val) ∧
      (∀ b : buf_t, bufs.getLast? = some b →
        b.max - b.min = c7.val / c3.val + c7.val % c3.val) ∧
      (∀ k : Nat, (k : Int) < c3.val →
        (k : Int) * (c7.val / c3.val) ≤ c7.val ∧
        (k : Int) * (c7.val / c3.val) + c7.val / c3.val ≤ c7.val) :=
  ⟨by decide, by decide, partition_contiguous c7 c3 (by decide) (by decide)⟩

/-! ## The update of `Y` -/

theorem saxpy_full_range (X Y A : List ℚ) (a : ℚ) (t P : Nat) (hX : X.length = P)
    (hY : Y.length = P) (ht : t < A.length) :
    (saxpy ⟨X, Y, A, a, (t : Int), (P : Int)⟩ ⟨0, (P : Int)⟩).map (fun s => s.Y)
      = some (axpy a X Y) := by
  have hin : inside Y.length (⟨0, (P : Int)⟩ : buf_t) := by
    unfold inside; simp only; omega
  rw [saxpy_spec ⟨X, Y, A, a, (t : Int), (P : Int)⟩ ⟨0, (P : Int)⟩ t hin (by simp; omega) rfl ht]
  simp only [Option.map_some', after_threads, List.any_cons, List.any_nil, Bool.or_false]
  congr 1
  apply upd_all _ _ _ _ (by omega)
  intro j hj
  rw [holds_iff]
  simp only
  omega

/-- C2 (correctness of the update): with `p > 0`, `n_threads >= 1` and `X`, `Y`
of length `p`, the threads of one iteration, run one after the other in any
order, all return, leave `X` as it is and put `Y[i] + a * X[i]` at every index
`i` of `[0, p)`, which is what the single call `saxpy` on `[0, p)` computes; and
a run of `max_iters` iterations ends with `Y0[i] + max_iters * a * X[i]`. -/
theorem saxpy_iteration_correct (p n_threads : c_int) (hp : 0 < p.val)
    (hn : 1 ≤ n_threads.val) (X Y A : List ℚ) (a : ℚ) (t : Nat)
    (hX : (X.length : Int) = p.val) (hY : (Y.length : Int) = p.val) (ht : t < A.length) :
    (∃ bufs, partition p.val n_threads.val = some bufs ∧
      ∀ l : List buf_t, l.Perm bufs →
        ∃ g, run_threads l ⟨X, Y, A, a, (t : Int), p.val⟩ = some g ∧
          g.X = X ∧ g.Y.length = Y.length ∧
          (∀ i : Nat, (i : Int) < p.val → g.Y.getD i 0 = Y.getD i 0 + a * X.getD i 0) ∧
          (saxpy ⟨X, Y, A, a, (t : Int), p.val⟩ ⟨0, p.val⟩).map (fun s => s.Y) = some g.Y) ∧
    (∀ (sched : Int → List buf_t → List buf_t) (max_iters : c_int) (A0 : List ℚ),
      fair sched → 0 ≤ max_iters.val → (A0.length : Int) = max_iters.val →
      ∃ g, run sched p.val n_threads.val max_iters.val X Y A0 a = some g ∧
        g.X = X ∧ g.Y.length = Y.length ∧
        ∀ i : Nat, (i : Int) < p.val →
          g.Y.getD i 0 = Y.getD i 0 + (max_iters.val : ℚ) * a * X.getD i 0) := by
  obtain ⟨P, hPe, hP⟩ := c_int_nat p (by omega)
  obtain ⟨N, hNe, hN⟩ := c_int_nat n_threads (by omega)
  rw [hPe] at hp hX hY
  rw [hNe] at hn
  rw [hPe, hNe]
  have hN0 : 0 < N := by omega
  have hXn : X.length = P := by exact_mod_cast hX
  have hYn : Y.length = P := by exact_mod_cast hY
  constructor
  · refine ⟨nbufs P N, partition_nat P N hP hN0 hN, ?_⟩
    intro l hl
    refine ⟨_, run_threads_perm ⟨X, Y, A, a, (t : Int), (P : Int)⟩ t P N l hl hN0 hXn hYn rfl ht,
      rfl, ?_, ?_, ?_⟩
    · simp only [after_iteration]
      rw [axpy_length a X Y (by omega)]
    · intro i hi
      have hi2 : i < P := by exact_mod_cast hi
      simp only [after_iteration]
      rw [axpy_getD a X Y i (by omega) (by omega)]
      rfl
    · exact saxpy_full_range X Y A a t P hXn hYn ht
  · intro sched max_iters A0 hs hk hA
    obtain ⟨K, hKe, hK⟩ := c_int_nat max_iters hk
    rw [hKe] at hA
    rw [hKe]
    have hAn : A0.length = K := by exact_mod_cast hA
    refine ⟨_, run_spec sched hs X Y A0 a P N K hP hN0 hN hK hXn hYn hAn, rfl, ?_, ?_⟩
    · simp only
      rw [axpy_k_length a X Y K (by omega)]
    · intro i hi
      have hi2 : i < P := by exact_mod_cast hi
      simp only
      rw [axpy_k_getD a X Y K i (by omega) (by omega)]
      simp

/-- C2 at `p = 4`, `n_threads = 2`, `X = [0.5, 0.5, 0.5, 0.5]`, `Y = [1, 1, 1, 1]`,
`a = 2`: `Y` is `[2, 2, 2, 2]` after one iteration and `[3, 3, 3, 3]` after two. -/
theorem saxpy_iteration_correct_witness :
    0 < c4.val ∧ 1 ≤ c2.val ∧
    (run fifo c4.val c2.val c1.val [1/2, 1/2, 1/2, 1/2] [1, 1, 1, 1] [0] 2).map
      (fun g => g.Y) = some [2, 2, 2, 2] ∧
    (run fifo c4.val c2.val c2.val [1/2, 1/2, 1/2, 1/2] [1, 1, 1, 1] [0, 0] 2).map
      (fun g => g.Y) = some [3, 3, 3, 3] := by
  have h := (saxpy_iteration_correct c4 c2 (by decide) (by decide)
    [1/2, 1/2, 1/2, 1/2] [1, 1, 1, 1] [0] 2 0 rfl rfl (by decide)).2
  have hf : fair fifo := fun _ l => List.Perm.refl l
  refine ⟨by decide, by decide, ?_, ?_⟩
  · obtain ⟨g, hg, _, hl, hv⟩ := h fifo c1 [0] hf (by decide) rfl
    rw [hg, Option.map_some']
    congr 1
    apply ext_getD _ _ (by rw [hl]; rfl)
    intro j hj
    have hj4 : j < 4 := hj
    rw [hv j (by simp only [c4]; omega)]
    interval_cases j <;> norm_num [c1]
  · obtain ⟨g, hg, _, hl, hv⟩ := h fifo c2 [0, 0] hf (by decide) rfl
    rw [hg, Option.map_some']
    congr 1
    apply ext_getD _ _ (by rw [hl]; rfl)
    intro j hj
    have hj4 : j < 4 := hj
    rw [hv j (by simp only [c4]; omega)]
    interval_cases j <;> norm_num [c2]

/-! ## The accumulator -/

theorem averages_length (a : ℚ) (X Y : List ℚ) (p : Int) (K : Nat) :
    (averages a X Y p K).length = K := by
  simp [averages]

theorem averages_getD (a : ℚ) (X Y : List ℚ) (p : Int) (K t : Nat) (ht : t < K) :
    (averages a X Y p K).getD t 0 = (axpy_k a X Y (t + 1)).sum / (p : ℚ) := by
  simp [averages, List.getD_eq_getElem?_getD, List.getElem?_map, List.getElem?_range ht]

/-- C4 (per-iteration average): with `p > 0`, `n_threads >= 1`, `max_iters >= 1`,
`X` and `Y` of length `p` and a block of `max_iters` slots for `Y_avgs`, the
run returns, and for every `it < max_iters` the slot `Y_avgs[it]` is the sum of
the `p` entries of `Y` as it stands after iteration `it` (the state after the
first `it + 1` passes of the loop), divided by `p`. -/
theorem averages_correct (sched : Int → List buf_t → List buf_t)
    (p n_threads max_iters : c_int) (hs : fair sched) (hp : 0 < p.val)
    (hn : 1 ≤ n_threads.val) (hk : 1 ≤ max_iters.val) (X Y A0 : List ℚ) (a : ℚ)
    (hX : (X.length : Int) = p.val) (hY : (Y.length : Int) = p.val)
    (hA : (A0.length : Int) = max_iters.val) :
    c_div p.val n_threads.val = some (p.val / n_threads.val) ∧
    ∃ g, run sched p.val n_threads.val max_iters.val X Y A0 a = some g ∧
      (g.Y_avgs.length : Int) = max_iters.val ∧
      ∀ it : Nat, (it : Int) < max_iters.val →
        ∃ g_it, iterations sched n_threads.val (p.val / n_threads.val) (it + 1)
            ⟨X, Y, List.replicate A0.length 0, a, 0, p.val⟩ = some g_it ∧
          g_it.Y = List.zipWith (fun y x => y + ((it : ℚ) + 1) * a * x) Y X ∧
          g.Y_avgs.getD it 0 = g_it.Y.sum / (p.val : ℚ) ∧
          g.Y_avgs.getD it 0 =
            (∑ i in Finset.range p.val.toNat, g_it.Y.getD i 0) / (p.val : ℚ) := by
  obtain ⟨P, hPe, hP⟩ := c_int_nat p (by omega)
  obtain ⟨N, hNe, hN⟩ := c_int_nat n_threads (by omega)
  obtain ⟨K, hKe, hK⟩ := c_int_nat max_iters (by omega)
  rw [hPe] at hp hX hY
  rw [hNe] at hn
  rw [hKe] at hk hA
  rw [hPe, hNe, hKe]
  have hN0 : 0 < N := by omega
  have hXn : X.length = P := by exact_mod_cast hX
  have hYn : Y.length = P := by exact_mod_cast hY
  have hAn : A0.length = K := by exact_mod_cast hA
  have hdiv : ((P : Int) / (N : Int)) = ((P / N : Nat) : Int) := by norm_cast
  refine ⟨by rw [hdiv]; exact c_div_nat P N hP hN0,
    _, run_spec sched hs X Y A0 a P N K hP hN0 hN hK hXn hYn hAn, ?_, ?_⟩
  · simp only
    rw [averages_length]
  · intro it hit
    have hit2 : it < K := by exact_mod_cast hit
    have hY1 : (axpy_k a X Y (it + 1)).length = P := by
      rw [axpy_k_length a X Y _ (by omega)]; exact hYn
    rw [hdiv]
    refine ⟨_, iterations_spec sched hs X Y _ a 0 P N hP hN0 hN hXn hYn (it + 1)
      (by rw [List.length_replicate]; omega) (by omega), ?_, ?_, ?_⟩
    · simp only [axpy_k]
      push_cast
      rfl
    · simp only
      rw [averages_getD _ _ _ _ _ _ hit2]
    · simp only
      rw [averages_getD _ _ _ _ _ _ hit2, sum_eq_sum_getD, hY1, Int.toNat_ofNat]

/-- C4 at `p = 4`, `n_threads = 2`, `max_iters = 2`, `X = [0.5, 0.5, 0.5, 0.5]`,
`Y = [1, 1, 1, 1]`, `a = 2`: the run ends with `Y_avgs = [2, 3]`, the averages of
`[2, 2, 2, 2]` and of `[3, 3, 3, 3]`. -/
theorem averages_correct_witness :
    0 < c4.val ∧ 1 ≤ c2.val ∧ 1 ≤ c2.val ∧
    ∃ g, run fifo c4.val c2.val c2.val [1/2, 1/2, 1/2, 1/2] [1, 1, 1, 1] [7, 9] 2 = some g ∧
      g.Y_avgs = [2, 3] := by
  have hf : fair fifo := fun _ l => List.Perm.refl l
  obtain ⟨_, g, hg, hl, h⟩ := averages_correct fifo c4 c2 c2 hf (by decide) (by decide)
    (by decide) [1/2, 1/2, 1/2, 1/2] [1, 1, 1, 1] [7, 9] 2 rfl rfl rfl
  refine ⟨by decide, by decide, by decide, g, hg, ?_⟩
  have hl2 : g.Y_avgs.length = 2 := by
    have e : c2.val = 2 := rfl
    rw [e] at hl
    exact_mod_cast hl
  apply ext_getD g.Y_avgs [2, 3] hl2
  intro j hj
  have hj2 : j < 2 := hj
  obtain ⟨g_it, _, hY, hv, _⟩ := h j (by simp only [c2]; omega)
  rw [hv, hY]
  interval_cases j <;> norm_num [c4]

/-! ## Independence of the order of the threads -/

/-- C9 (determinism of the accumulator): with `p > 0`, `n_threads >= 1`, `X` and
`Y` of length `p` and `it` a slot of `Y_avgs`, the threads of an iteration leave
one and the same state (the same `Y`, the same `Y_avgs`) in whatever order they
run their update and their add; and two runs under any two schedulers end in
the same state. -/
theorem accumulation_order_independent (p n_threads : c_int) (hp : 0 < p.val)
    (hn : 1 ≤ n_threads.val) (X Y A : List ℚ) (a : ℚ) (t : Nat)
    (hX : (X.length : Int) = p.val) (hY : (Y.length : Int) = p.val) (ht : t < A.length) :
    (∃ bufs g, partition p.val n_threads.val = some bufs ∧
      ∀ l : List buf_t, l.Perm bufs →
        run_threads l ⟨X, Y, A, a, (t : Int), p.val⟩ = some g) ∧
    (∀ (s1 s2 : Int → List buf_t → List buf_t) (max_iters : c_int) (A0 : List ℚ),
      fair s1 → fair s2 → 0 ≤ max_iters.val → (A0.length : Int) = max_iters.val →
      ∃ g, run s1 p.val n_threads.val max_iters.val X Y A0 a = some g ∧
        run s2 p.val n_threads.val max_iters.val X Y A0 a = some g) := by
  obtain ⟨P, hPe, hP⟩ := c_int_nat p (by omega)
  obtain ⟨N, hNe, hN⟩ := c_int_nat n_threads (by omega)
  rw [hPe] at hp hX hY
  rw [hNe] at hn
  rw [hPe, hNe]
  have hN0 : 0 < N := by omega
  have hXn : X.length = P := by exact_mod_cast hX
  have hYn : Y.length = P := by exact_mod_cast hY
  constructor
  · refine ⟨nbufs P N, after_iteration ⟨X, Y, A, a, (t : Int), (P : Int)⟩ t,
      partition_nat P N hP hN0 hN, ?_⟩
    intro l hl
    exact run_threads_perm ⟨X, Y, A, a, (t : Int), (P : Int)⟩ t P N l hl hN0 hXn hYn rfl ht
  · intro s1 s2 max_iters A0 h1 h2 hk hA
    obtain ⟨K, hKe, hK⟩ := c_int_nat max_iters hk
    rw [hKe] at hA
    rw [hKe]
    have hAn : A0.length = K := by exact_mod_cast hA
    exact ⟨_, run_spec s1 h1 X Y A0 a P N K hP hN0 hN hK hXn hYn hAn,
      run_spec s2 h2 X Y A0 a P N K hP hN0 hN hK hXn hYn hAn⟩

/-- C9 at `p = 7`, `n_threads = 3`, `X = [1, 2, 3, 4, 5, 6, 7]`, `Y = 0`, `a = 1`:
the threads run last-first-second leave the state of the creation order. -/
theorem accumulation_order_independent_witness :
    0 < c7.val ∧ 1 ≤ c3.val ∧
    ∃ g, run_threads [⟨0, 2⟩, ⟨2, 4⟩, ⟨4, 7⟩]
        ⟨[1, 2, 3, 4, 5, 6, 7], [0, 0, 0, 0, 0, 0, 0], [0], 1, 0, c7.val⟩ = some g ∧
      run_threads [⟨4, 7⟩, ⟨0, 2⟩, ⟨2, 4⟩]
        ⟨[1, 2, 3, 4, 5, 6, 7], [0, 0, 0, 0, 0, 0, 0], [0], 1, 0, c7.val⟩ = some g := by
  have hpart : partition c7.val c3.val = some [⟨0, 2⟩, ⟨2, 4⟩, ⟨4, 7⟩] := by decide
  obtain ⟨⟨bufs, g, hb, h⟩, _⟩ := accumulation_order_independent c7 c3 (by decide) (by decide)
    [1, 2, 3, 4, 5, 6, 7] [0, 0, 0, 0, 0, 0, 0] [0] 1 0 rfl rfl (by decide)
  rw [hpart] at hb
  cases hb
  exact ⟨by decide, by decide, g, h _ (List.Perm.refl _),
    h _ (List.perm_append_singleton (⟨4, 7⟩ : buf_t) [⟨0, 2⟩, ⟨2, 4⟩]).symm⟩

/-! ## More threads than elements -/

/-- A thread on an empty range `[c, c)` returns and changes nothing. -/
theorem saxpy_empty (g : Globals) (c : Int) (t : Nat) (ht : g.it = (t : Int))
    (htl : t < g.Y_avgs.length) : saxpy g ⟨c, c⟩ = some g := by
  unfold saxpy
  simp only [sub_self, Int.toNat_zero, saxpy_loop, lt_self_iff_false, if_false,
    Option.some_bind, zero_div, add_zero]
  rw [ht, load_nat _ t htl, Option.some_bind, store_nat _ t _ htl, Option.some_bind,
    set_getD_self _ _ htl, ← ht]

/-- C5 (degenerate thread count): with `p > 0` and `n_threads > p`, a run with
`n_threads` workers and a run with `p` workers both return and end with the same
`Y`, whatever the iteration count and the schedulers; every range of the
partition is the empty `[0, 0)` or the whole `[0, p)`; and `saxpy` on an empty
range returns the state as it was (no element of `Y` changed, zero added). -/
theorem degenerate_thread_count (p n_threads max_iters : c_int) (hp : 0 < p.val)
    (hn : p.val < n_threads.val) (hk : 0 ≤ max_iters.val) (X Y A0 : List ℚ) (a : ℚ)
    (hX : (X.length : Int) = p.val) (hY : (Y.length : Int) = p.val)
    (hA : (A0.length : Int) = max_iters.val)
    (s1 s2 : Int → List buf_t → List buf_t) (h1 : fair s1) (h2 : fair s2) :
    (∃ g1 g2, run s1 p.val n_threads.val max_iters.val X Y A0 a = some g1 ∧
      run s2 p.val p.val max_iters.val X Y A0 a = some g2 ∧ g1.Y = g2.Y) ∧
    (∃ bufs, partition p.val n_threads.val = some bufs ∧
      ∀ b ∈ bufs, b = ⟨0, 0⟩ ∨ b = ⟨0, p.val⟩) ∧
    (∀ (g : Globals) (c : Int) (t : Nat), g.it = (t : Int) → t < g.Y_avgs.length →
      saxpy g ⟨c, c⟩ = some g) := by
  obtain ⟨P, hPe, hP⟩ := c_int_nat p (by omega)
  obtain ⟨N, hNe, hN⟩ := c_int_nat n_threads (by omega)
  obtain ⟨K, hKe, hK⟩ := c_int_nat max_iters hk
  rw [hPe] at hp hX hY hn
  rw [hNe] at hn
  rw [hKe] at hA
  rw [hPe, hNe, hKe]
  have hP0 : 0 < P := by omega
  have hPN : P < N := by omega
  have hXn : X.length = P := by exact_mod_cast hX
  have hYn : Y.length = P := by exact_mod_cast hY
  have hAn : A0.length = K := by exact_mod_cast hA
  refine ⟨⟨_, _, run_spec s1 h1 X Y A0 a P N K hP (by omega) hN hK hXn hYn hAn,
    run_spec s2 h2 X Y A0 a P P K hP hP0 hP hK hXn hYn hAn, rfl⟩,
    ⟨nbufs P N, partition_nat P N hP (by omega) hN, ?_⟩, saxpy_empty⟩
  intro b hb
  obtain ⟨k, hk, rfl⟩ := (nbufs_mem P N b).mp hb
  have hm : P / N = 0 := Nat.div_eq_of_lt hPN
  simp only [nbuf, nhi, hm, Nat.mul_zero, Nat.add_zero]
  by_cases h : k + 1 = N
  · right; simp [h]
  · left; simp [h]

/-- C5 at `p = 3`, `n_threads = 5`, `max_iters = 2`, `X = [1, 2, 3]`,
`Y = [10, 20, 30]`, `a = 2`: both runs end with `Y = [14, 28, 42]`. -/
theorem degenerate_thread_count_witness :
    0 < c3.val ∧ c3.val < c5.val ∧ 0 ≤ c2.val ∧
    (run fifo c3.val c5.val c2.val [1, 2, 3] [10, 20, 30] [0, 0] 2).map (fun g => g.Y)
      = some [14, 28, 42] ∧
    (run fifo c3.val c3.val c2.val [1, 2, 3] [10, 20, 30] [0, 0] 2).map (fun g => g.Y)
      = some [14, 28, 42] := by
  have hf : fair fifo := fun _ l => List.Perm.refl l
  obtain ⟨⟨g1, g2, hg1, hg2, he⟩, _, _⟩ := degenerate_thread_count c3 c5 c2 (by decide)
    (by decide) (by decide) [1, 2, 3] [10, 20, 30] [0, 0] 2 rfl rfl rfl fifo fifo hf hf
  have h3 := run_spec fifo hf [1, 2, 3] [10, 20, 30] [0, 0] 2 3 3 2 (by decide) (by decide)
    (by decide) (by decide) rfl rfl rfl
  have e3 : c3.val = ((3 : Nat) : Int) := rfl
  have e2 : c2.val = ((2 : Nat) : Int) := rfl
  have hY2 : g2.Y = [14, 28, 42] := by
    rw [e3, e2, h3] at hg2
    cases hg2
    norm_num [axpy_k]
  refine ⟨by decide, by decide, by decide, ?_, ?_⟩
  · rw [hg1, Option.map_some', he, hY2]
  · rw [hg2, Option.map_some', hY2]

/-! ## The final report -/

theorem checked_in_range (x : Int) (h1 : -2147483648 ≤ x) (h2 : x ≤ 2147483647) :
    checked x = some x := by
  have : INT_MIN ≤ x ∧ x ≤ INT_MAX := by
    simp only [INT_MIN, INT_MAX]; omega
  simp [checked, this]

/-- C10 (indexes of the final report): the indexes `p - 3`, `p - 2`, `p - 1`
into `Y` (of length `p`) and `max_iters - 3`, `max_iters - 2`, `max_iters - 1`
into `Y_avgs` (of length `max_iters`) are all inside their block exactly when
`p >= 3` and `max_iters >= 3`; when `0 < p < 3` or `0 < max_iters < 3` one of
them is negative. -/
theorem report_indexes (p max_iters : c_int) :
    (((∀ i ∈ report_Y p.val, in_block p.val i = true) ∧
        (∀ i ∈ report_Y_avgs max_iters.val, in_block max_iters.val i = true))
      ↔ (3 ≤ p.val ∧ 3 ≤ max_iters.val)) ∧
    (((0 < p.val ∧ p.val < 3) ∨ (0 < max_iters.val ∧ max_iters.val < 3)) →
      (∃ i ∈ report_Y p.val, negative i = true) ∨
      (∃ i ∈ report_Y_avgs max_iters.val, negative i = true)) := by
  have key : ∀ x : c_int,
      ((∀ i ∈ [checked (x.val - 3), checked (x.val - 2), checked (x.val - 1)],
          in_block x.val i = true) ↔ 3 ≤ x.val) ∧
      (0 < x.val → x.val < 3 →
        ∃ i ∈ [checked (x.val - 3), checked (x.val - 2), checked (x.val - 1)],
          negative i = true) := by
    intro x
    have hlo := x.ge_min
    have hhi := x.le_max
    simp only [INT_MIN, INT_MAX] at hlo hhi
    constructor
    · constructor
      · intro h
        have h3 := h (checked (x.val - 3)) (by simp)
        by_contra hc
        by_cases hr : -2147483648 ≤ x.val - 3
        · rw [checked_in_range _ hr (by omega)] at h3
          simp only [in_block, decide_eq_true_eq] at h3
          omega
        · have : checked (x.val - 3) = none := by
            have : ¬ (INT_MIN ≤ x.val - 3 ∧ x.val - 3 ≤ INT_MAX) := by
              simp only [INT_MIN, INT_MAX]; omega
            unfold checked
            rw [if_neg this]
          rw [this] at h3
          simp [in_block] at h3
      · intro h i hi
        simp only [List.mem_cons, List.mem_singleton, List.not_mem_nil, or_false] at hi
        rcases hi with rfl | rfl | rfl
        · rw [checked_in_range _ (by omega) (by omega)]; simp only [in_block, decide_eq_true_eq]; omega
        · rw [checked_in_range _ (by omega) (by omega)]; simp only [in_block, decide_eq_true_eq]; omega
        · rw [checked_in_range _ (by omega) (by omega)]; simp only [in_block, decide_eq_true_eq]; omega
    · intro h0 h3
      refine ⟨checked (x.val - 3), by simp, ?_⟩
      rw [checked_in_range _ (by omega) (by omega)]
      simp only [negative, decide_eq_true_eq]
      omega
  constructor
  · unfold report_Y report_Y_avgs
    rw [(key p).1, (key max_iters).1]
  · unfold report_Y report_Y_avgs
    rintro (⟨h0, h3⟩ | ⟨h0, h3⟩)
    · exact Or.inl ((key p).2 h0 h3)
    · exact Or.inr ((key max_iters).2 h0 h3)

/-! ## The option loop -/

/-- C6 fails on the code: `-i 0` leaves the option loop with `max_iters = 0` and
`-n 0` with `n_threads = 0` (only `-p` is checked, by the `assert`), and the
program goes on to the division `p / n_threads`, which for `-n 0` is a division
by zero. -/
theorem unchecked_options :
    parse_options [⟨'i', 0⟩] defaults = .ok ⟨10000000, 1, 2, 0⟩ ∧
    c_div 10000000 2 = some 5000000 ∧
    parse_options [⟨'n', 0⟩] defaults = .ok ⟨10000000, 1, 0, 1000⟩ ∧
    c_div 10000000 0 = none ∧
    parse_options [⟨'p', 0⟩] defaults = .error Stop.assert_failed := by
  refine ⟨rfl, by decide, rfl, by decide, rfl⟩

end Saxpy
